import Mathlib

/-!
Shallow embedding of `bibtexsweeper.py` (Sv3n/bibtex-sweeper).

A bibliography record (Python dict, insertion ordered) is modelled as an
association list of field name / field value pairs.  Python dict reads
`entry[k]` that can raise `KeyError` are modelled with `Except String`;
guarded reads (`k in entry`, `try ... except KeyError`) stay pure.
-/

abbrev Entry := List (String × String)

/-- Python `entry.get(k)` / `k in entry`: first binding of the key, if any. -/
def findKey : Entry → String → Option String
  | [], _ => none
  | kv :: rest, k => if kv.1 = k then some kv.2 else findKey rest k

/-- Python `entry[k] = v`: replace an existing key in place, else append. -/
def setKey : Entry → String → String → Entry
  | [], k, v => [(k, v)]
  | kv :: rest, k, v => if kv.1 = k then (k, v) :: rest else kv :: setKey rest k v

/-- Python `del entry[k]`: remove the (unique, for a dict) binding of the key. -/
def eraseKey : Entry → String → Entry
  | [], _ => []
  | kv :: rest, k => if kv.1 = k then rest else kv :: eraseKey rest k

theorem findKey_setKey_self (e : Entry) (k v : String) :
    findKey (setKey e k v) k = some v := by
  induction e with
  | nil => simp [setKey, findKey]
  | cons kv rest ih =>
    by_cases h : kv.1 = k
    · simp [setKey, findKey, h]
    · simp [setKey, findKey, h, ih]

theorem findKey_setKey_ne (e : Entry) (k v k' : String) (h : k' ≠ k) :
    findKey (setKey e k v) k' = findKey e k' := by
  induction e with
  | nil => simp [setKey, findKey, Ne.symm h]
  | cons kv rest ih =>
    by_cases hk : kv.1 = k
    · simp [setKey, findKey, hk, Ne.symm h, h]
    · by_cases hk' : kv.1 = k'
      · simp [setKey, findKey, hk, hk', h]
      · simp [setKey, findKey, hk, hk', ih]

theorem setKey_setKey_same (e : Entry) (k v w : String) :
    setKey (setKey e k v) k w = setKey e k w := by
  induction e with
  | nil => simp [setKey]
  | cons kv rest ih =>
    by_cases h : kv.1 = k
    · simp [setKey, h]
    · simp [setKey, h, ih]

theorem findKey_eraseKey_ne (e : Entry) (k k' : String) (h : k' ≠ k) :
    findKey (eraseKey e k) k' = findKey e k' := by
  induction e with
  | nil => simp [eraseKey, findKey]
  | cons kv rest ih =>
    by_cases hk : kv.1 = k
    · simp [eraseKey, findKey, hk, Ne.symm h]
    · simp [eraseKey, findKey, hk, ih]

theorem findKey_eraseKey_self (e : Entry) (k : String)
    (hnd : (e.map Prod.fst).Nodup) : findKey (eraseKey e k) k = none := by
  induction e with
  | nil => simp [eraseKey, findKey]
  | cons kv rest ih =>
    simp only [List.map_cons, List.nodup_cons] at hnd
    by_cases hk : kv.1 = k
    · subst hk
      simp only [eraseKey, if_pos rfl]
      clear ih
      induction rest with
      | nil => simp [findKey]
      | cons kv' rest' ih' =>
        simp only [List.mem_map] at hnd
        have h1 : kv'.1 ≠ kv.1 := by
          intro hc
          exact hnd.1 ⟨kv', List.mem_cons_self _ _, hc⟩
        refine Eq.trans ?_ (ih' ⟨?_, hnd.2.of_cons⟩)
        · simp [findKey, h1]
        · intro hm
          exact hnd.1 (by
            obtain ⟨x, hx, hxe⟩ := List.mem_map.mp hm
            exact ⟨x, List.mem_cons_of_mem _ hx, hxe⟩)
    · simp [eraseKey, findKey, hk, ih hnd.2]

/-! ## String protection (`protectStringsCb`, source lines 53-59)

The pass substitutes, per configured string `s`, the regex
`(.*\W)` + escaped s + `(.*)` (IGNORECASE) by group 1, an opening brace,
`s`, a closing brace, group 2.  The leading `.*` is greedy, so the regex
engine commits to the RIGHTMOST position `i ≥ 1` such that the character
at `i - 1` is a non-word character and `s` occurs case-insensitively at
`i`; the single substitution wraps that occurrence.  If no such position
exists the value is unchanged.  `re.escape` is the identity on the
alphanumeric protect strings this rule targets. -/

/-- Python regex `\w` (ASCII): letter, digit or underscore. -/
def isWordChar (c : Char) : Bool := c.isAlphanum || c = '_'

/-- Case-insensitive occurrence of `s` at position `i` of `v`. -/
def ciMatchAt (v s : List Char) (i : Nat) : Bool :=
  decide (((v.drop i).take s.length).map Char.toLower = s.map Char.toLower)
    && decide (i + s.length ≤ v.length)

/-- Position `i` is a match position for the protection regex: it has a
preceding character, that character is a non-word character, and the
protect string occurs (case-insensitively) at `i`. -/
def validAt (v s : List Char) (i : Nat) : Bool :=
  decide (1 ≤ i) &&
    (match v.get? (i - 1) with
     | some c => !isWordChar c
     | none => false) &&
    ciMatchAt v s i

/-- Search downward from `k` for the greatest match position (the greedy
`(.*\W)` prefix makes the regex engine pick the rightmost match). -/
def protectIndexAux (v s : List Char) : Nat → Option Nat
  | 0 => none
  | i + 1 => if validAt v s (i + 1) then some (i + 1) else protectIndexAux v s i

def protectIndex (v s : List Char) : Option Nat := protectIndexAux v s v.length

/-- Single `re.sub` of `(.*\W)s(.*)` by group 1, braced `s`, group 2. -/
def protectOne (v : String) (s : String) : String :=
  match protectIndex v.data s.data with
  | none => v
  | some i =>
      String.mk (v.data.take i ++ ('\x7b' :: s.data ++ ['\x7d'])
        ++ v.data.drop (i + s.data.length))

/-- The callback `protectStringsCb(entry, elemKey, strings)`: the loop body reads
`entry[elemKey]` unguarded, so a missing field raises `KeyError` as soon
as the string list is non-empty. -/
def protectStringsCb (entry : Entry) (elemKey : String) (strings : List String) :
    Except String Entry :=
  match findKey entry elemKey with
  | none => if strings.isEmpty then .ok entry else .error "KeyError"
  | some v => .ok (setKey entry elemKey (strings.foldl protectOne v))

/-! ## Text replacement (`replaceInEntry`, source lines 83-91)

Each rule key's pair list runs inside `try ... except KeyError: pass`, so
a missing field skips that key silently.  `re.sub` of an escaped
(literal) pattern with IGNORECASE replaces every non-overlapping
occurrence, scanning left to right. -/

def ciReplaceAll (pat repl : List Char) : List Char → List Char
  | [] => []
  | c :: rest =>
    if h : pat ≠ [] ∧ ((c :: rest).take pat.length).map Char.toLower
        = pat.map Char.toLower ∧ pat.length ≤ rest.length + 1 then
      repl ++ ciReplaceAll pat repl ((c :: rest).drop pat.length)
    else
      c :: ciReplaceAll pat repl rest
termination_by cs => cs.length
decreasing_by
  · simp only [List.length_drop, List.length_cons]
    have hp : 1 ≤ pat.length := by
      cases pat with
      | nil => exact absurd rfl h.1
      | cons p ps => simp
    omega
  · simp

def replaceInEntry (entry : Entry)
    (typeRules : List (String × List (String × String))) : Entry :=
  typeRules.foldl
    (fun e rule =>
      match findKey e rule.1 with
      | none => e
      | some v =>
          setKey e rule.1
            (rule.2.foldl
              (fun acc pr =>
                String.mk (ciReplaceAll pr.1.data pr.2.data acc.data)) v))
    entry

theorem validAt_le_length (v s : List Char) (j : Nat) (h : validAt v s j = true) :
    j ≤ v.length := by
  unfold validAt ciMatchAt at h
  simp only [Bool.and_eq_true, decide_eq_true_eq] at h
  omega

theorem protectIndexAux_isSome (v s : List Char) (k : Nat) :
    ∀ i, protectIndexAux v s k = some i →
      validAt v s i = true ∧ i ≤ k ∧ ∀ j, j ≤ k → validAt v s j = true → j ≤ i := by
  induction k with
  | zero => intro i h; exact absurd h (by simp [protectIndexAux])
  | succ k ih =>
    intro i h
    unfold protectIndexAux at h
    by_cases hv : validAt v s (k + 1) = true
    · rw [if_pos hv] at h
      obtain rfl : k + 1 = i := by injection h
      exact ⟨hv, le_refl _, fun j hj _ => hj⟩
    · rw [if_neg hv] at h
      obtain ⟨h1, h2, h3⟩ := ih i h
      refine ⟨h1, Nat.le_succ_of_le h2, fun j hj hval => ?_⟩
      rcases Nat.lt_succ_iff_lt_or_eq.mp (Nat.lt_succ_of_le hj) with hlt | rfl
      · exact h3 j (Nat.lt_succ_iff.mp hlt) hval
      · exact absurd hval hv

theorem protectIndexAux_isNone (v s : List Char) (k : Nat) :
    protectIndexAux v s k = none → ∀ j, j ≤ k → validAt v s j = false := by
  induction k with
  | zero =>
    intro _ j hj
    obtain rfl : j = 0 := Nat.le_zero.mp hj
    simp [validAt]
  | succ k ih =>
    intro h j hj
    unfold protectIndexAux at h
    by_cases hv : validAt v s (k + 1) = true
    · rw [if_pos hv] at h; exact absurd h (by simp)
    · rw [if_neg hv] at h
      rcases Nat.lt_succ_iff_lt_or_eq.mp (Nat.lt_succ_of_le hj) with hlt | rfl
      · exact ih h j (Nat.lt_succ_iff.mp hlt)
      · revert hv; cases validAt v s (k + 1) <;> simp

/-- Claim C1: every transform pass silently skips a rule whose field is
absent from the record.  Evaluation at the failing input: on a record of
matching type without the configured field, the string-protection
callback raises `KeyError` (modelled as an error), while the
text-replacement pass does skip silently. -/
theorem C1_missing_field_eval :
    protectStringsCb [("ID", "a"), ("ENTRYTYPE", "article")] "title" ["SDRAM"]
        = .error "KeyError" ∧
      replaceInEntry [("ID", "a"), ("ENTRYTYPE", "article")]
          [("title", [("Sdram", "SDRAM")])]
        = [("ID", "a"), ("ENTRYTYPE", "article")] := by
  constructor <;> rfl

/-- Claim C4, counterexample: with two boundary-preceded occurrences of the
protect string, the greedy leading group makes the pass wrap the LAST
occurrence, not the first one the claim prescribes. -/
theorem C4_counterexample :
    protectStringsCb
        [("ID", "a"), ("ENTRYTYPE", "article"), ("title", "a SDRAM b SDRAM c")]
        "title" ["SDRAM"]
      = .ok [("ID", "a"), ("ENTRYTYPE", "article"),
             ("title", "a SDRAM b \x7bSDRAM\x7d c")] ∧
    ("a SDRAM b \x7bSDRAM\x7d c" : String) ≠ "a \x7bSDRAM\x7d b SDRAM c" := by
  exact ⟨rfl, by decide⟩

/-- Claim C4 (amended): string protection wraps exactly the last occurrence
of the configured string that is preceded by a non-word character (matching
case-insensitively); when no occurrence has a preceding non-word character
— in particular for an occurrence at the very start of the value — the
value is unchanged. -/
theorem C4_last_boundary_occurrence (v s : String) :
    (∀ i, protectIndex v.data s.data = some i →
        validAt v.data s.data i = true ∧
        (∀ j, validAt v.data s.data j = true → j ≤ i) ∧
        protectOne v s
          = String.mk (v.data.take i ++ ('\x7b' :: s.data ++ ['\x7d'])
              ++ v.data.drop (i + s.data.length))) ∧
      (protectIndex v.data s.data = none →
        protectOne v s = v ∧ ∀ j, validAt v.data s.data j = false) := by
  constructor
  · intro i h
    obtain ⟨h1, _, h3⟩ := protectIndexAux_isSome v.data s.data v.data.length i h
    refine ⟨h1, fun j hj => h3 j (validAt_le_length _ _ _ hj) hj, ?_⟩
    unfold protectOne
    rw [protectIndex] at h ⊢
    rw [h]
  · intro h
    refine ⟨?_, fun j => ?_⟩
    · unfold protectOne
      rw [h]
    · by_cases hj : j ≤ v.data.length
      · exact protectIndexAux_isNone v.data s.data v.data.length h j hj
      · revert hj
        cases hval : validAt v.data s.data j
        · simp
        · intro hj; exact absurd (validAt_le_length _ _ _ hval) hj

/-- Witness for C4: the spec's own examples, derived from the amended
theorem — the start-of-value occurrence is never protected, a single
boundary-preceded occurrence is wrapped. -/
theorem C4_last_boundary_occurrence_witness :
    protectOne "the SDRAM chip" "SDRAM" = "the \x7bSDRAM\x7d chip" ∧
      protectOne "SDRAM chip" "SDRAM" = "SDRAM chip" := by
  constructor
  · have h := (C4_last_boundary_occurrence "the SDRAM chip" "SDRAM").1 4 (by decide)
    exact h.2.2.trans (by decide)
  · exact ((C4_last_boundary_occurrence "SDRAM chip" "SDRAM").2 (by decide)).1

/-! ## Configuration loading and field filtering
(`BibTexSweeperConfig.load` lines 36-38, `removeUnwantedElements` lines 76-80)

At load time every configured allow-list is extended with the two base
output elements ID and ENTRYTYPE (a two-element set; its iteration order
only affects the order of the appended names, not membership).  The
filtering pass reads `entry['ENTRYTYPE']` unguarded, and rebuilds each
matching record keeping only allowed keys, in the record's own order. -/

def loadOutputElements (cfg : List (String × List String)) :
    List (String × List String) :=
  cfg.map (fun p => (p.1, p.2 ++ ["ID", "ENTRYTYPE"]))

/-- The dict comprehension of line 80. -/
def keepAllowed (allowed : List String) (e : Entry) : Entry :=
  e.filter (fun kv => allowed.contains kv.1)

def filterStep (bt : String) (allowed : List String) :
    List Entry → Except String (List Entry)
  | [] => .ok []
  | e :: es =>
    match findKey e "ENTRYTYPE" with
    | none => .error "KeyError"
    | some t =>
      match filterStep bt allowed es with
      | .error m => .error m
      | .ok es' => .ok ((if t = bt then keepAllowed allowed e else e) :: es')

def removeUnwantedElements (entries : List Entry) :
    List (String × List String) → Except String (List Entry)
  | [] => .ok entries
  | r :: rs =>
    match filterStep r.1 r.2 entries with
    | .error m => .error m
    | .ok es => removeUnwantedElements es rs

theorem forall2_compose {α : Type} {R S T : α → α → Prop}
    (h : ∀ a b c, R a b → S b c → T a c) :
    ∀ {l1 l2 l3 : List α}, List.Forall₂ R l1 l2 → List.Forall₂ S l2 l3 →
      List.Forall₂ T l1 l3 := by
  intro l1 l2 l3 h12
  induction h12 generalizing l3 with
  | nil => intro h23; cases h23; exact .nil
  | cons hab htail ih =>
    intro h23
    cases h23 with
    | cons hbc htail2 => exact .cons (h _ _ _ hab hbc) (ih htail2)

theorem forall2_mem_right {α : Type} {R : α → α → Prop} :
    ∀ {l1 l2 : List α}, List.Forall₂ R l1 l2 → ∀ b ∈ l2, ∃ a ∈ l1, R a b := by
  intro l1 l2 h
  induction h with
  | nil => intro b hb; cases hb
  | cons hab htail ih =>
    intro b hb
    rcases List.mem_cons.mp hb with rfl | hb'
    · exact ⟨_, List.mem_cons_self _ _, hab⟩
    · obtain ⟨a, ha, har⟩ := ih b hb'
      exact ⟨a, List.mem_cons_of_mem _ ha, har⟩

theorem findKey_keepAllowed (allowed : List String) (e : Entry) (k : String)
    (hk : k ∈ allowed) :
    findKey (keepAllowed allowed e) k = findKey e k := by
  induction e with
  | nil => simp [keepAllowed, findKey]
  | cons kv rest ih =>
    simp only [keepAllowed] at ih ⊢
    by_cases h : kv.1 = k
    · subst h
      simp [List.filter_cons, hk, findKey]
    · by_cases hmem : kv.1 ∈ allowed <;>
        · simp [List.filter_cons, hmem, findKey, h] at ih ⊢
          exact ih

theorem filterStep_spec (bt : String) (allowed : List String)
    (hID : "ID" ∈ allowed)
    (hTY : "ENTRYTYPE" ∈ allowed) :
    ∀ entries : List Entry,
      (∀ e ∈ entries, (findKey e "ENTRYTYPE").isSome) →
      ∃ es1, filterStep bt allowed entries = .ok es1 ∧
        List.Forall₂ (fun e e' =>
          findKey e' "ID" = findKey e "ID" ∧
          findKey e' "ENTRYTYPE" = findKey e "ENTRYTYPE" ∧
          (findKey e "ENTRYTYPE" ≠ some bt → e' = e)) entries es1 := by
  intro entries
  induction entries with
  | nil => intro _; exact ⟨[], rfl, .nil⟩
  | cons e es ih =>
    intro hall
    obtain ⟨t, ht⟩ :=
      Option.isSome_iff_exists.mp (hall e (List.mem_cons_self _ _))
    obtain ⟨es1, h1, h2⟩ := ih (fun x hx => hall x (List.mem_cons_of_mem _ hx))
    refine ⟨(if t = bt then keepAllowed allowed e else e) :: es1, ?_, ?_⟩
    · simp only [filterStep]
      rw [ht, h1]
    · refine .cons ⟨?_, ?_, ?_⟩ h2
      · by_cases hb : t = bt
        · simp [hb, findKey_keepAllowed allowed e "ID" hID]
        · simp [hb]
      · by_cases hb : t = bt
        · simp [hb, findKey_keepAllowed allowed e "ENTRYTYPE" hTY]
        · simp [hb]
      · intro hne
        by_cases hb : t = bt
        · exact absurd (ht.trans (by rw [hb])) hne
        · simp [hb]

theorem removeUnwanted_spec :
    ∀ (rs : List (String × List String)) (entries : List Entry),
      (∀ r ∈ rs, "ID" ∈ r.2 ∧ "ENTRYTYPE" ∈ r.2) →
      (∀ e ∈ entries, (findKey e "ENTRYTYPE").isSome) →
      ∃ es', removeUnwantedElements entries rs = .ok es' ∧
        List.Forall₂ (fun e e' =>
          findKey e' "ID" = findKey e "ID" ∧
          findKey e' "ENTRYTYPE" = findKey e "ENTRYTYPE" ∧
          ∀ t, findKey e "ENTRYTYPE" = some t →
            t ∉ rs.map Prod.fst → e' = e)
          entries es' := by
  intro rs
  induction rs with
  | nil =>
    intro entries _ _
    exact ⟨entries, rfl,
      List.forall₂_same.mpr (fun e _ => ⟨rfl, rfl, fun _ _ _ => rfl⟩)⟩
  | cons r rs' ih =>
    intro entries hrules hall
    obtain ⟨es1, h1, h2⟩ :=
      filterStep_spec r.1 r.2 (hrules r (List.mem_cons_self _ _)).1
        (hrules r (List.mem_cons_self _ _)).2 entries hall
    have hall1 : ∀ e ∈ es1, (findKey e "ENTRYTYPE").isSome := by
      intro b hb
      obtain ⟨a, ha, hR⟩ := forall2_mem_right h2 b hb
      rw [hR.2.1]
      exact hall a ha
    obtain ⟨es2, h3, h4⟩ :=
      ih es1 (fun x hx => hrules x (List.mem_cons_of_mem _ hx)) hall1
    refine ⟨es2, ?_, ?_⟩
    · simp only [removeUnwantedElements]
      rw [h1]
      exact h3
    · refine forall2_compose ?_ h2 h4
      rintro a b c ⟨hID1, hTY1, hunt1⟩ ⟨hID2, hTY2, hunt2⟩
      refine ⟨hID2.trans hID1, hTY2.trans hTY1, ?_⟩
      intro t hta hcont
      simp only [List.map_cons, List.mem_cons, not_or] at hcont
      have hba : b = a := hunt1 (by rw [hta]; intro hc; injection hc; tauto)
      subst hba
      exact hunt2 t (hTY1.trans hta) hcont.2

/-- Claim C3: after config loading (which unions ID and ENTRYTYPE into
every allow-list) the field-filtering pass preserves the ID and ENTRYTYPE
bindings of every record, and leaves records whose type has no configured
allow-list untouched. -/
theorem C3_filter_keeps_id_and_type (rules : List (String × List String))
    (entries : List Entry)
    (hall : ∀ e ∈ entries, (findKey e "ENTRYTYPE").isSome) :
    ∃ es', removeUnwantedElements entries (loadOutputElements rules) = .ok es' ∧
      List.Forall₂ (fun e e' =>
        findKey e' "ID" = findKey e "ID" ∧
        findKey e' "ENTRYTYPE" = findKey e "ENTRYTYPE" ∧
        ∀ t, findKey e "ENTRYTYPE" = some t →
          t ∉ rules.map Prod.fst → e' = e)
        entries es' := by
  have hr : ∀ r ∈ loadOutputElements rules,
      "ID" ∈ r.2 ∧ "ENTRYTYPE" ∈ r.2 := by
    intro r hmem
    obtain ⟨p, _, rfl⟩ := List.mem_map.mp hmem
    constructor <;> simp
  obtain ⟨es', h1, h2⟩ :=
    removeUnwanted_spec (loadOutputElements rules) entries hr hall
  have hkeys : (loadOutputElements rules).map Prod.fst = rules.map Prod.fst := by
    simp [loadOutputElements]
  simp only [hkeys] at h2
  exact ⟨es', h1, h2⟩

/-- Witness for C3 at a concrete record and allow-list that omits both ID
and ENTRYTYPE. -/
theorem C3_filter_keeps_id_and_type_witness :
    ∃ es', removeUnwantedElements
        [[("ID", "x"), ("ENTRYTYPE", "article"), ("note", "n")]]
        (loadOutputElements [("article", ["title"])]) = .ok es' ∧
      List.Forall₂ (fun e e' =>
        findKey e' "ID" = findKey e "ID" ∧
        findKey e' "ENTRYTYPE" = findKey e "ENTRYTYPE" ∧
        ∀ t, findKey e "ENTRYTYPE" = some t →
          t ∉ [("article", ["title"])].map Prod.fst → e' = e)
        [[("ID", "x"), ("ENTRYTYPE", "article"), ("note", "n")]] es' :=
  C3_filter_keeps_id_and_type [("article", ["title"])]
    [[("ID", "x"), ("ENTRYTYPE", "article"), ("note", "n")]] (by decide)

/-! ## Alias resolution (`removeAliases`, source lines 102-107)

The outer loop runs over the alias table in order; the inner loop rewrites
each record whose current type is in the rule's alias list.  Since the
records are independent, the nested loops are equivalent to folding the
rule list over each record's type in table order.  The unguarded read
`entry['ENTRYTYPE']` raises `KeyError` on a record without a type. -/

def applyAliasRules (rules : List (String × List String)) (t : String) : String :=
  rules.foldl (fun t r => if t ∈ r.2 then r.1 else t) t

def removeAliases (rules : List (String × List String)) :
    List Entry → Except String (List Entry)
  | [] => .ok []
  | e :: es =>
    match findKey e "ENTRYTYPE" with
    | none => .error "KeyError"
    | some t =>
      match removeAliases rules es with
      | .error m => .error m
      | .ok es' => .ok (setKey e "ENTRYTYPE" (applyAliasRules rules t) :: es')

/-- Claim C7, counterexample: with rules mapping x from alias y and y from
alias z, a record of type z resolves to y after one pass but to x after a
second pass, so alias resolution is not idempotent. -/
theorem C7_counterexample :
    removeAliases [("x", ["y"]), ("y", ["z"])] [[("ENTRYTYPE", "z")]]
        = .ok [[("ENTRYTYPE", "y")]] ∧
      removeAliases [("x", ["y"]), ("y", ["z"])] [[("ENTRYTYPE", "y")]]
        = .ok [[("ENTRYTYPE", "x")]] ∧
      ([[("ENTRYTYPE", "x")]] : List Entry) ≠ [[("ENTRYTYPE", "y")]] := by
  exact ⟨rfl, rfl, by decide⟩

theorem applyAliasRules_no_match (rules : List (String × List String))
    (x : String) (hx : ∀ r ∈ rules, x ∉ r.2) : applyAliasRules rules x = x := by
  induction rules with
  | nil => rfl
  | cons r rs ih =>
    unfold applyAliasRules
    simp only [List.foldl_cons, if_neg (hx r (List.mem_cons_self _ _))]
    exact ih (fun r' hr' => hx r' (List.mem_cons_of_mem _ hr'))

theorem applyAliasRules_mem_keys (rules : List (String × List String)) :
    ∀ t, applyAliasRules rules t = t ∨
      ∃ r ∈ rules, applyAliasRules rules t = r.1 := by
  induction rules with
  | nil => intro t; exact .inl rfl
  | cons r rs ih =>
    intro t
    unfold applyAliasRules
    simp only [List.foldl_cons]
    by_cases h : t ∈ r.2
    · rw [if_pos h]
      rcases ih r.1 with h1 | ⟨r', hr', h2⟩
      · exact .inr ⟨r, List.mem_cons_self _ _, h1⟩
      · exact .inr ⟨r', List.mem_cons_of_mem _ hr', h2⟩
    · rw [if_neg h]
      rcases ih t with h1 | ⟨r', hr', h2⟩
      · exact .inl h1
      · exact .inr ⟨r', List.mem_cons_of_mem _ hr', h2⟩

theorem applyAliasRules_idem (rules : List (String × List String))
    (hsep : ∀ r ∈ rules, ∀ r' ∈ rules, r.1 ∉ r'.2) (t : String) :
    applyAliasRules rules (applyAliasRules rules t) = applyAliasRules rules t := by
  rcases applyAliasRules_mem_keys rules t with h | ⟨r, hr, h⟩
  · rw [h, h]
  · rw [h]
    exact applyAliasRules_no_match rules r.1 (fun r' hr' => hsep r hr r' hr')

/-- Claim C7 (amended): alias resolution is idempotent provided no
canonical type of the alias table occurs in any alias set; without that
proviso a chain such as the one in the counterexample rewrites further on
a second pass. -/
theorem C7_removeAliases_idem (rules : List (String × List String))
    (hsep : ∀ r ∈ rules, ∀ r' ∈ rules, r.1 ∉ r'.2) :
    ∀ (es es1 es2 : List Entry),
      removeAliases rules es = .ok es1 → removeAliases rules es1 = .ok es2 →
      es2 = es1 := by
  intro es
  induction es with
  | nil =>
    intro es1 es2 h1 h2
    obtain rfl : es1 = [] := by
      simp only [removeAliases] at h1
      injection h1
      tauto
    simp only [removeAliases] at h2
    injection h2
    tauto
  | cons e es ih =>
    intro es1 es2 h1 h2
    simp only [removeAliases] at h1
    cases ht : findKey e "ENTRYTYPE" with
    | none => rw [ht] at h1; exact absurd h1 (by simp)
    | some t =>
      rw [ht] at h1
      cases hrest : removeAliases rules es with
      | error m => rw [hrest] at h1; exact absurd h1 (by simp)
      | ok tail1 =>
        rw [hrest] at h1
        obtain rfl : setKey e "ENTRYTYPE" (applyAliasRules rules t) :: tail1 = es1 := by
          injection h1
        simp only [removeAliases, findKey_setKey_self] at h2
        cases hrest2 : removeAliases rules tail1 with
        | error m => rw [hrest2] at h2; exact absurd h2 (by simp)
        | ok tail2 =>
          rw [hrest2] at h2
          have htail : tail2 = tail1 := ih tail1 tail2 hrest hrest2
          have hhead :
              setKey (setKey e "ENTRYTYPE" (applyAliasRules rules t)) "ENTRYTYPE"
                  (applyAliasRules rules (applyAliasRules rules t))
                = setKey e "ENTRYTYPE" (applyAliasRules rules t) := by
            rw [applyAliasRules_idem rules hsep t, setKey_setKey_same]
          injection h2 with h2'
          rw [← h2', hhead, htail]

/-- Witness for C7: a table whose canonical types never occur as aliases,
applied twice to a concrete record collection. -/
theorem C7_removeAliases_idem_witness :
    removeAliases [("x", ["y"]), ("w", ["z"])] [[("ENTRYTYPE", "y")]]
        = .ok [[("ENTRYTYPE", "x")]] ∧
      removeAliases [("x", ["y"]), ("w", ["z"])] [[("ENTRYTYPE", "x")]]
        = .ok [[("ENTRYTYPE", "x")]] ∧
      ([[("ENTRYTYPE", "x")]] : List Entry) = [[("ENTRYTYPE", "x")]] :=
  ⟨rfl, rfl, C7_removeAliases_idem [("x", ["y"]), ("w", ["z"])] (by decide)
    [[("ENTRYTYPE", "y")]] [[("ENTRYTYPE", "x")]] [[("ENTRYTYPE", "x")]] rfl rfl ▸ rfl⟩

/-! ## Required-field check (`checkRequiredWithList` lines 130-147,
`checkRequired` lines 150-156)

A required specifier is a single field name or a tuple of alternatives.
Warning text is abstracted to the specifier that fired (in firing order);
the dict reads performed while formatting each message are kept: the
alternative branch reads `entry['ID']`, the single-field branch reads
`entry['ID']` and, unconditionally, `entry['title']`. -/

inductive ReqSpec
  | single (f : String)
  | oneOf (fs : List String)
deriving DecidableEq

def checkRequiredWithList (entry : Entry) : List ReqSpec → Except String (List ReqSpec)
  | [] => .ok []
  | .oneOf fs :: rest =>
    if fs.all (fun f => (findKey entry f).isNone) then
      match findKey entry "ID" with
      | none => .error "KeyError"
      | some _ =>
        match checkRequiredWithList entry rest with
        | .error m => .error m
        | .ok ws => .ok (.oneOf fs :: ws)
    else checkRequiredWithList entry rest
  | .single f :: rest =>
    if (findKey entry f).isNone then
      match findKey entry "ID", findKey entry "title" with
      | some _, some _ =>
        match checkRequiredWithList entry rest with
        | .error m => .error m
        | .ok ws => .ok (.single f :: ws)
      | _, _ => .error "KeyError"
    else checkRequiredWithList entry rest

def requiredBase : List ReqSpec :=
  [.oneOf ["organization", "author", "institution"], .single "title"]

def requiredInproceedings : List ReqSpec :=
  requiredBase ++ [.single "pages", .single "year", .single "booktitle"]

def checkRequired : List Entry → Except String (List (List ReqSpec))
  | [] => .ok []
  | e :: es =>
    match findKey e "ENTRYTYPE" with
    | none => .error "KeyError"
    | some t =>
      match checkRequiredWithList e
          (if t = "inproceedings" then requiredInproceedings else requiredBase) with
      | .error m => .error m
      | .ok ws =>
        match checkRequired es with
        | .error m => .error m
        | .ok rest => .ok (ws :: rest)

/-- Claim C2: evaluation at the failing input.  A record whose title is
missing makes the single-field warning branch read `entry['title']` and
raise `KeyError` — processing halts instead of warning — while the same
check on records that do have a title emits exactly one warning per
missing specifier and none for satisfied ones. -/
theorem C2_missing_title_eval :
    checkRequiredWithList [("ID", "x1"), ("ENTRYTYPE", "article"), ("author", "A")]
        requiredBase = .error "KeyError" ∧
      checkRequiredWithList
        [("ID", "x1"), ("ENTRYTYPE", "article"), ("author", "A"), ("title", "T")]
        requiredBase = .ok [] ∧
      checkRequiredWithList
        [("ID", "x2"), ("ENTRYTYPE", "inproceedings"), ("author", "A"),
         ("title", "T"), ("year", "2000"), ("booktitle", "B")]
        requiredInproceedings = .ok [.single "pages"] := by
  exact ⟨rfl, rfl, rfl⟩

/-! ## Optional-field expansion (`expandOptElement` lines 110-120,
`expandOptElements` lines 123-127)

The loop iterates over `entry.items()` — modelled as a snapshot of the
record's key list taken when the loop starts (the list that Python 2's
`dict.items`, targeted by the script's plain `python` shebang, returns) —
while each `expandOptElement` call reads and writes the live record.
`key[len('opt'):]` is the character drop of the first three characters. -/

def expandOptElement (entry : Entry) (key : String) : Except String Entry :=
  let keyNoOpt := String.mk (key.data.drop 3)
  if keyNoOpt.length = 0 then .error "AssertionError"
  else
    match findKey entry key with
    | none => .error "KeyError"
    | some v =>
      .ok (eraseKey
        (match findKey entry keyNoOpt with
         | some w => if w.length < v.length then setKey entry keyNoOpt v else entry
         | none => setKey entry keyNoOpt v)
        key)

def expandKeys : Entry → List String → Except String Entry
  | e, [] => .ok e
  | e, k :: ks =>
    if "opt".data.isPrefixOf k.data then
      match expandOptElement e k with
      | .error m => .error m
      | .ok e' => expandKeys e' ks
    else expandKeys e ks

def expandOptEntry (entry : Entry) : Except String Entry :=
  expandKeys entry (entry.map Prod.fst)

def expandOptElements : List Entry → Except String (List Entry)
  | [] => .ok []
  | e :: es =>
    match expandOptEntry e with
    | .error m => .error m
    | .ok e' =>
      match expandOptElements es with
      | .error m => .error m
      | .ok es' => .ok (e' :: es')

theorem findKey_eq_none_iff (e : Entry) (k : String) :
    findKey e k = none ↔ k ∉ e.map Prod.fst := by
  induction e with
  | nil => simp [findKey]
  | cons kv rest ih =>
    by_cases h : kv.1 = k
    · simp [findKey, h]
    · simp [findKey, h, ih, Ne.symm h]

theorem keys_setKey_of_present (e : Entry) (k v w : String)
    (h : findKey e k = some w) :
    (setKey e k v).map Prod.fst = e.map Prod.fst := by
  induction e with
  | nil => simp [findKey] at h
  | cons kv rest ih =>
    by_cases hk : kv.1 = k
    · simp [setKey, hk]
    · simp only [findKey, if_neg hk] at h
      simp [setKey, hk, ih h]

theorem keys_setKey_of_absent (e : Entry) (k v : String)
    (h : findKey e k = none) :
    (setKey e k v).map Prod.fst = e.map Prod.fst ++ [k] := by
  induction e with
  | nil => simp [setKey]
  | cons kv rest ih =>
    by_cases hk : kv.1 = k
    · simp [findKey, hk] at h
    · simp only [findKey, if_neg hk] at h
      simp [setKey, hk, ih h]

theorem expandOptElement_empty_suffix (entry : Entry) :
    expandOptElement entry "opt" = .error "AssertionError" := rfl

theorem expandKeys_error_of_mem_opt :
    ∀ (ks : List String) (e : Entry), "opt" ∈ ks →
      ∃ m, expandKeys e ks = .error m := by
  intro ks
  induction ks with
  | nil => intro e h; cases h
  | cons k ks' ih =>
    intro e hmem
    by_cases hk : k = "opt"
    · subst hk
      exact ⟨"AssertionError", rfl⟩
    · have hmem' : "opt" ∈ ks' := by
        rcases List.mem_cons.mp hmem with h | h
        · exact absurd h.symm hk
        · exact h
      by_cases hs : "opt".data.isPrefixOf k.data
      · cases hcall : expandOptElement e k with
        | error m => exact ⟨m, by simp only [expandKeys, if_pos hs, hcall]⟩
        | ok e' =>
          obtain ⟨m, hm⟩ := ih e' hmem'
          exact ⟨m, by simp only [expandKeys, if_pos hs, hcall]; exact hm⟩
      · obtain ⟨m, hm⟩ := ih e hmem'
        exact ⟨m, by simp only [expandKeys, if_neg hs]; exact hm⟩

theorem expandOptElements_error_of_mem_opt :
    ∀ (entries : List Entry) (e : Entry), e ∈ entries →
      "opt" ∈ e.map Prod.fst → ∃ m, expandOptElements entries = .error m := by
  intro entries
  induction entries with
  | nil => intro e h; cases h
  | cons e0 es ih =>
    intro e hmem hopt
    rcases List.mem_cons.mp hmem with rfl | hmem'
    · obtain ⟨m, hm⟩ := expandKeys_error_of_mem_opt (e.map Prod.fst) e hopt
      exact ⟨m, by simp only [expandOptElements, expandOptEntry, hm]⟩
    · cases h0 : expandOptEntry e0 with
      | error m => exact ⟨m, by simp only [expandOptElements, h0]⟩
      | ok e0' =>
        obtain ⟨m, hm⟩ := ih e hmem' hopt
        exact ⟨m, by simp only [expandOptElements, h0, hm]⟩

/-- Claim C6: a shadow field named by the prefix plus a non-empty suffix
has its value transferred (promotion when the canonical field is absent,
longer-value-wins when present, ties keeping the canonical value) and is
then removed; a shadow field whose suffix is empty makes the whole pass
fail loudly with an assertion error rather than being ignored. -/
theorem C6_opt_expansion :
    (∀ (entry : Entry) (suffix v : String),
        (entry.map Prod.fst).Nodup → suffix ≠ "" →
        findKey entry ("opt" ++ suffix) = some v →
        ∃ e', expandOptElement entry ("opt" ++ suffix) = .ok e' ∧
          findKey e' ("opt" ++ suffix) = none ∧
          findKey e' suffix
            = some (match findKey entry suffix with
                    | some w => if w.length < v.length then v else w
                    | none => v)) ∧
      (∀ entry : Entry, expandOptElement entry "opt" = .error "AssertionError") ∧
      (∀ (entries : List Entry) (e : Entry), e ∈ entries →
        "opt" ∈ e.map Prod.fst → ∃ m, expandOptElements entries = .error m) := by
  refine ⟨?_, expandOptElement_empty_suffix, expandOptElements_error_of_mem_opt⟩
  intro entry suffix v hnd hsuf hf
  have hdata : ("opt" ++ suffix).data = 'o' :: 'p' :: 't' :: suffix.data := by
    have h0 : ("opt" ++ suffix).data = "opt".data ++ suffix.data :=
      String.data_append "opt" suffix
    simpa using h0
  have hdrop : String.mk (("opt" ++ suffix).data.drop 3) = suffix := by
    rw [hdata]
    show String.mk suffix.data = suffix
    rfl
  have hlen' : suffix.length ≠ 0 := by
    intro hc
    have hd : suffix.data = [] := List.length_eq_zero.mp hc
    exact hsuf (String.ext hd)
  have hne : suffix ≠ "opt" ++ suffix := by
    intro hc
    have h1 := congrArg String.length hc
    rw [String.length_append] at h1
    have h3 : ("opt" : String).length = 3 := rfl
    omega
  cases hw : findKey entry suffix with
  | some w =>
    have hred : expandOptElement entry ("opt" ++ suffix)
        = .ok (eraseKey
            (if w.length < v.length then setKey entry suffix v else entry)
            ("opt" ++ suffix)) := by
      simp only [expandOptElement, hdrop, hf, hw]
      rw [if_neg hlen']
    by_cases hcmp : w.length < v.length
    · rw [if_pos hcmp] at hred
      refine ⟨_, hred, ?_, ?_⟩
      · refine findKey_eraseKey_self _ _ ?_
        rw [keys_setKey_of_present entry suffix v w hw]
        exact hnd
      · rw [findKey_eraseKey_ne _ _ _ hne, findKey_setKey_self]
        simp [hcmp]
    · rw [if_neg hcmp] at hred
      refine ⟨_, hred, ?_, ?_⟩
      · exact findKey_eraseKey_self _ _ hnd
      · rw [findKey_eraseKey_ne _ _ _ hne, hw]
        simp [hcmp]
  | none =>
    have hred : expandOptElement entry ("opt" ++ suffix)
        = .ok (eraseKey (setKey entry suffix v) ("opt" ++ suffix)) := by
      simp only [expandOptElement, hdrop, hf, hw]
      rw [if_neg hlen']
    refine ⟨_, hred, ?_, ?_⟩
    · refine findKey_eraseKey_self _ _ ?_
      rw [keys_setKey_of_absent entry suffix v hw]
      simp only [List.nodup_append, List.nodup_cons, List.nodup_nil]
      refine ⟨hnd, by simp, ?_⟩
      simp only [List.disjoint_singleton]
      exact (findKey_eq_none_iff entry suffix).mp hw
    · rw [findKey_eraseKey_ne _ _ _ hne, findKey_setKey_self]

/-- Witness for C6: promotion of a longer shadow title over a shorter
canonical one, on a concrete record. -/
theorem C6_opt_expansion_witness :
    ∃ e', expandOptElement
        [("ID", "x"), ("ENTRYTYPE", "a"), ("title", "short"),
         ("opttitle", "a longer title")] ("opt" ++ "title") = .ok e' ∧
      findKey e' ("opt" ++ "title") = none ∧
      findKey e' "title"
        = some (match findKey
            [("ID", "x"), ("ENTRYTYPE", "a"), ("title", "short"),
             ("opttitle", "a longer title")] "title" with
                | some w => if w.length < ("a longer title").length
                    then "a longer title" else w
                | none => "a longer title") :=
  C6_opt_expansion.1
    [("ID", "x"), ("ENTRYTYPE", "a"), ("title", "short"),
     ("opttitle", "a longer title")] "title" "a longer title"
    (by decide) (by decide) (by decide)

/-! ## Citation filter (`getBblEntries` lines 188-195,
`filterEntriesWithBbl` lines 198-201)

`getBblEntries` runs two `re.findall` scans over the citation file text:
first the bracketed-label pattern (backslash bibitem, a lazy DOTALL
bracket group, then a brace-delimited non-empty identifier of word
characters and hyphens), then the bare-label pattern (backslash bibitem
directly followed by the brace-delimited identifier); the result is the
identifiers of the first scan followed by those of the second.  The
engine tries a match at every position, resuming one character later on
failure and after the match on success; the lazy bracket group stops at
the first closing bracket that is followed by a well-formed identifier
group.  The scans are modelled with a step budget equal to the text
length, which is never exhausted since every step consumes a character.
The filter itself reads `x['ID']` unguarded and keeps the records, in
their original order, whose identifier occurs in the extracted list. -/

def isIdChar (c : Char) : Bool := isWordChar c || c = '-'

def tryIdBrace : List Char → Option (String × List Char)
  | '\x7b' :: rest =>
    (match rest.dropWhile isIdChar with
     | '\x7d' :: rem =>
       if (rest.takeWhile isIdChar).isEmpty then none
       else some (String.mk (rest.takeWhile isIdChar), rem)
     | _ => none)
  | _ => none

def bracketScan : List Char → Option (String × List Char)
  | [] => none
  | c :: rest =>
    if c = ']' then
      match tryIdBrace rest with
      | some r => some r
      | none => bracketScan rest
    else bracketScan rest

def scanBracketedAux : Nat → List Char → List String
  | 0, _ => []
  | _, [] => []
  | fuel + 1, c :: rest =>
    if "\\bibitem[".data.isPrefixOf (c :: rest) then
      match bracketScan ((c :: rest).drop 9) with
      | some (ident, rem) => ident :: scanBracketedAux fuel rem
      | none => scanBracketedAux fuel rest
    else scanBracketedAux fuel rest

def scanBareAux : Nat → List Char → List String
  | 0, _ => []
  | _, [] => []
  | fuel + 1, c :: rest =>
    if "\\bibitem\x7b".data.isPrefixOf (c :: rest) then
      (match ((c :: rest).drop 9).dropWhile isIdChar with
       | '\x7d' :: rem =>
         if (((c :: rest).drop 9).takeWhile isIdChar).isEmpty then
           scanBareAux fuel rest
         else String.mk (((c :: rest).drop 9).takeWhile isIdChar)
           :: scanBareAux fuel rem
       | _ => scanBareAux fuel rest)
    else scanBareAux fuel rest

def getBblEntries (content : String) : List String :=
  scanBracketedAux content.data.length content.data
    ++ scanBareAux content.data.length content.data

def filterEntriesWithBbl : List Entry → String → Except String (List Entry)
  | [], _ => .ok []
  | e :: es, content =>
    match findKey e "ID" with
    | none => .error "KeyError"
    | some i =>
      match filterEntriesWithBbl es content with
      | .error m => .error m
      | .ok kept =>
        .ok (if (getBblEntries content).contains i then e :: kept else kept)

theorem filterEntriesWithBbl_eq_filter (content : String) :
    ∀ entries : List Entry, (∀ e ∈ entries, (findKey e "ID").isSome) →
      filterEntriesWithBbl entries content
        = .ok (entries.filter
            (fun e => (getBblEntries content).contains ((findKey e "ID").getD ""))) := by
  intro entries
  induction entries with
  | nil => intro _; rfl
  | cons e es ih =>
    intro hid
    obtain ⟨i, hi⟩ :=
      Option.isSome_iff_exists.mp (hid e (List.mem_cons_self _ _))
    have ih' := ih (fun x hx => hid x (List.mem_cons_of_mem _ hx))
    simp only [filterEntriesWithBbl, hi, ih', List.filter_cons, Option.getD_some]

/-- Claim C8: the citation filter keeps exactly the records whose
identifier is extracted from the citation file by either accepted
citation-item shape, in the records' original relative order (the result
is the order-preserving filtration of the input collection). -/
theorem C8_citation_filter (entries : List Entry) (content : String)
    (hid : ∀ e ∈ entries, (findKey e "ID").isSome) :
    filterEntriesWithBbl entries content
        = .ok (entries.filter
            (fun e => (getBblEntries content).contains ((findKey e "ID").getD ""))) ∧
      (entries.filter
          (fun e => (getBblEntries content).contains ((findKey e "ID").getD ""))).Sublist
        entries :=
  ⟨filterEntriesWithBbl_eq_filter content entries hid, List.filter_sublist _⟩

/-- Witness for C8: a citation file citing r3 (bracketed-label shape) and
r1 (bare-label shape); from [r1, r2, r3] the filter keeps [r1, r3] in the
original order. -/
theorem C8_citation_filter_witness :
    filterEntriesWithBbl [[("ID", "r1")], [("ID", "r2")], [("ID", "r3")]]
        "\\bibitem[A. Author]\x7br3\x7d\n\\bibitem\x7br1\x7d"
      = .ok ([[("ID", "r1")], [("ID", "r2")], [("ID", "r3")]].filter
          (fun e =>
            (getBblEntries
              "\\bibitem[A. Author]\x7br3\x7d\n\\bibitem\x7br1\x7d").contains
                ((findKey e "ID").getD ""))) ∧
      ([[("ID", "r1")], [("ID", "r2")], [("ID", "r3")]].filter
          (fun e =>
            (getBblEntries
              "\\bibitem[A. Author]\x7br3\x7d\n\\bibitem\x7br1\x7d").contains
                ((findKey e "ID").getD "")))
        = [[("ID", "r1")], [("ID", "r3")]] :=
  ⟨(C8_citation_filter [[("ID", "r1")], [("ID", "r2")], [("ID", "r3")]]
      "\\bibitem[A. Author]\x7br3\x7d\n\\bibitem\x7br1\x7d" (by decide)).1,
    by decide⟩

/-! ## Author-list reduction (`applyEtAlTreshold`, source lines 204-227)

The pass first applies the collaborator library's author customization to
the record, turning the author field into a list of names; that
collaborator is not part of this repository, so its parse is modelled
from the spec and any name normalization it applies on top of the split
is kept abstract as the `authorFn` parameter.  When the parsed count
exceeds the threshold, the list is cut to the remaining length (1 in IEEE
mode, the threshold otherwise) and, in the last retained name, every
comma is replaced by the italic et-al marker (`str.replace` replaces all
occurrences).  The single-author wrap guard of line 223 compares the list
returned by `split` with the integer 1 — identically false in Python —
so its branch never runs.  The whole body is inside
`try ... except KeyError`, so records without an author field are left
untouched. -/

/-- Python `str.split` on a literal separator: leftmost, non-overlapping,
with a step budget (the text length suffices, each step consumes a
character). -/
def splitSep (sep : List Char) : Nat → List Char → List (List Char)
  | _, [] => [[]]
  | 0, cs => [cs]
  | fuel + 1, c :: rest =>
    if sep ≠ [] ∧ sep.isPrefixOf (c :: rest) then
      [] :: splitSep sep fuel ((c :: rest).drop sep.length)
    else
      match splitSep sep fuel rest with
      | [] => [[c]]
      | g :: gs => (c :: g) :: gs

/-- Modelled from the spec: the collaborator author customization
(`bibtexparser.customization.author`, an external library the repository
imports) "parses the author field into an ordered list of individual
author names using the same author-list convention as the bibliography
format's and-separated lists". -/
def specAuthorSplit (a : String) : List String :=
  (splitSep " and ".data a.data.length a.data).map String.mk

/-- The literal replacement text of line 221. -/
def etAlMarker : String := "~\x7b\\it\x7bet al.\x7d\x7d,"

/-- Python `str.replace` with a single-character pattern: every occurrence
is replaced, scanning once left to right. -/
def pyReplaceChar (c : Char) (repl : List Char) : List Char → List Char
  | [] => []
  | x :: xs =>
    if x = c then repl ++ pyReplaceChar c repl xs
    else x :: pyReplaceChar c repl xs

/-- Line 223 compares `entry['author'][0].split(' ')` — a list — with the
integer 1.  In Python a list never equals an integer, so the comparison
is identically false and the wrap branch below it is dead code. -/
def pyListEqInt (xs : List String) (n : Nat) : Bool := false

def applyEtAlEntry (authorFn : String → List String)
    (etAlTreshold remainingLength : Nat) (entry : Entry) : Entry :=
  match findKey entry "author" with
  | none => entry
  | some a =>
    let names := authorFn a
    let names1 :=
      if etAlTreshold < names.length then
        (names.take remainingLength).set (remainingLength - 1)
          (String.mk (pyReplaceChar ',' etAlMarker.data
            (((names.take remainingLength).getD (remainingLength - 1) "").data)))
      else names
    let names2 :=
      if names.length == 1 && pyListEqInt ((names1.headD "").splitOn " ") 1 then
        names1.set 0 ("\x7b" ++ names1.headD "" ++ "\x7d")
      else names1
    setKey entry "author" (String.intercalate " and " names2)

def applyEtAlTreshold (authorFn : String → List String) (entries : List Entry)
    (etAlTreshold etAlIeeeMode : Nat) : List Entry :=
  if etAlTreshold = 0 then entries
  else
    entries.map (applyEtAlEntry authorFn etAlTreshold
      (if etAlIeeeMode = 1 then 1 else etAlTreshold))

theorem applyEtAlEntry_none (authorFn : String → List String)
    (t r : Nat) (entry : Entry) (h : findKey entry "author" = none) :
    applyEtAlEntry authorFn t r entry = entry := by
  simp [applyEtAlEntry, h]

theorem applyEtAlEntry_le (authorFn : String → List String)
    (t r : Nat) (entry : Entry) (a : String)
    (hf : findKey entry "author" = some a) (hn : (authorFn a).length ≤ t) :
    applyEtAlEntry authorFn t r entry
      = setKey entry "author" (String.intercalate " and " (authorFn a)) := by
  simp only [applyEtAlEntry, hf]
  rw [if_neg (Nat.not_lt.mpr hn)]
  simp [pyListEqInt]

theorem applyEtAlEntry_gt (authorFn : String → List String)
    (t r : Nat) (entry : Entry) (a : String)
    (hf : findKey entry "author" = some a) (hn : t < (authorFn a).length) :
    applyEtAlEntry authorFn t r entry
      = setKey entry "author" (String.intercalate " and "
          (((authorFn a).take r).set (r - 1)
            (String.mk (pyReplaceChar ',' etAlMarker.data
              (((authorFn a).take r).getD (r - 1) "").data)))) := by
  simp only [applyEtAlEntry, hf]
  rw [if_pos hn]
  simp [pyListEqInt]

/-- Claim C5, counterexample: with threshold 2 (non-IEEE) the field
"A, B and C, D and E, F" becomes "A, B and C~(italic et al. marker), D":
`str.replace` hits the comma between the second author's surname and
given name, it does not append the marker after "C, D" as the claim
states. -/
theorem C5_counterexample :
    ((applyEtAlTreshold specAuthorSplit
        [[("ID", "x"), ("ENTRYTYPE", "article"),
          ("author", "A, B and C, D and E, F")]] 2 0).map
        (fun e => findKey e "author"))
      = [some "A, B and C~\x7b\\it\x7bet al.\x7d\x7d, D"] ∧
    ("A, B and C~\x7b\\it\x7bet al.\x7d\x7d, D" : String)
      ≠ "A, B and C, D~\x7b\\it\x7bet al.\x7d\x7d," := by
  exact ⟨rfl, by decide⟩

/-- Claim C5 (amended): with threshold 2 the example field becomes
"A, B and C~(marker), D" (the marker replaces each comma of the last
retained name); in IEEE mode only the first author is retained, becoming
"A~(marker), B"; in general the author list is truncated exactly when
the parsed author count exceeds the threshold, and is re-joined
unchanged otherwise. -/
theorem C5_et_al_threshold :
    ((applyEtAlTreshold specAuthorSplit
        [[("ID", "x"), ("ENTRYTYPE", "article"),
          ("author", "A, B and C, D and E, F")]] 2 0).map
        (fun e => findKey e "author"))
      = [some "A, B and C~\x7b\\it\x7bet al.\x7d\x7d, D"] ∧
    ((applyEtAlTreshold specAuthorSplit
        [[("ID", "x"), ("ENTRYTYPE", "article"),
          ("author", "A, B and C, D and E, F")]] 2 1).map
        (fun e => findKey e "author"))
      = [some "A~\x7b\\it\x7bet al.\x7d\x7d, B"] ∧
    (∀ (authorFn : String → List String) (t r : Nat) (entry : Entry) (a : String),
      findKey entry "author" = some a →
      ((authorFn a).length ≤ t →
        applyEtAlEntry authorFn t r entry
          = setKey entry "author" (String.intercalate " and " (authorFn a))) ∧
      (t < (authorFn a).length →
        applyEtAlEntry authorFn t r entry
          = setKey entry "author" (String.intercalate " and "
              (((authorFn a).take r).set (r - 1)
                (String.mk (pyReplaceChar ',' etAlMarker.data
                  (((authorFn a).take r).getD (r - 1) "").data)))))) := by
  refine ⟨rfl, rfl, ?_⟩
  intro authorFn t r entry a hf
  exact ⟨applyEtAlEntry_le authorFn t r entry a hf,
    applyEtAlEntry_gt authorFn t r entry a hf⟩

/-- Witness for C5: a two-author field at threshold 2 is below the
threshold, so it is re-joined without truncation. -/
theorem C5_et_al_threshold_witness :
    applyEtAlEntry specAuthorSplit 2 2 [("author", "A, B and C, D")]
      = setKey [("author", "A, B and C, D")] "author"
          (String.intercalate " and " (specAuthorSplit "A, B and C, D")) :=
  (C5_et_al_threshold.2.2 specAuthorSplit 2 2 [("author", "A, B and C, D")]
    "A, B and C, D" rfl).1 (by decide)

/-- Claim C9: evaluation at the failing input.  A single retained
one-token author name is NOT wrapped in protective grouping markers: the
guard of line 223 compares a list with an integer and is always false,
so the field keeps the bare name. -/
theorem C9_single_author_not_wrapped :
    ((applyEtAlTreshold specAuthorSplit
        [[("ID", "x"), ("ENTRYTYPE", "article"), ("author", "Smith")]] 2 0).map
        (fun e => findKey e "author"))
      = [some "Smith"] ∧
    (some "Smith" : Option String) ≠ some "\x7bSmith\x7d" := by
  exact ⟨rfl, by decide⟩

/-- Claim C10: with a non-zero threshold the pass touches at most the
author field of each record — records without an author field are left
untouched and every other field keeps its binding — but every record
with an author field has that field rewritten as the " and "-join of the
parsed (and collaborator-normalized) name list, even when the author
count is at or below the threshold, so the value is not guaranteed to
stay byte-for-byte unchanged. -/
theorem C10_frame_effect (authorFn : String → List String)
    (t ieee : Nat) (entries : List Entry) (ht : t ≠ 0) :
    List.Forall₂ (fun e e' =>
        (∀ k, k ≠ "author" → findKey e' k = findKey e k) ∧
        (findKey e "author" = none → e' = e) ∧
        (∀ a, findKey e "author" = some a → (authorFn a).length ≤ t →
          findKey e' "author"
            = some (String.intercalate " and " (authorFn a))))
      entries (applyEtAlTreshold authorFn entries t ieee) := by
  unfold applyEtAlTreshold
  rw [if_neg ht]
  induction entries with
  | nil => exact .nil
  | cons e es ih =>
    refine .cons ⟨?_, ?_, ?_⟩ ih
    · intro k hk
      cases hf : findKey e "author" with
      | none => rw [applyEtAlEntry_none _ _ _ _ hf]
      | some a =>
        cases Nat.lt_or_ge t (authorFn a).length with
        | inl hgt =>
          rw [applyEtAlEntry_gt _ _ _ _ _ hf hgt, findKey_setKey_ne _ _ _ _ hk]
        | inr hle =>
          rw [applyEtAlEntry_le _ _ _ _ _ hf hle, findKey_setKey_ne _ _ _ _ hk]
    · intro hf
      exact applyEtAlEntry_none _ _ _ _ hf
    · intro a hf hle
      rw [applyEtAlEntry_le _ _ _ _ _ hf hle, findKey_setKey_self]

/-- Witness for C10 on a concrete record collection. -/
theorem C10_frame_effect_witness :
    List.Forall₂ (fun e e' =>
        (∀ k, k ≠ "author" → findKey e' k = findKey e k) ∧
        (findKey e "author" = none → e' = e) ∧
        (∀ a, findKey e "author" = some a →
          (specAuthorSplit a).length ≤ 3 →
          findKey e' "author"
            = some (String.intercalate " and " (specAuthorSplit a))))
      [[("ID", "x"), ("author", "John Smith"), ("note", "n")], [("ID", "y")]]
      (applyEtAlTreshold specAuthorSplit
        [[("ID", "x"), ("author", "John Smith"), ("note", "n")], [("ID", "y")]]
        3 0) :=
  C10_frame_effect specAuthorSplit 3 0
    [[("ID", "x"), ("author", "John Smith"), ("note", "n")], [("ID", "y")]]
    (by decide)
